import Mathlib

set_option autoImplicit false

/-!
Verification development for the carbonapi scatter/gather proxy
(src/main.go). The Go functions relevant to the specified behaviour are
embedded shallowly: slices become lists, the float64 sample payload is
modelled by Int (the merger only copies samples, never computes with
them), protobuf decoding of a response body is modelled by its result
(an Option of the decoded message), and the mutable state of each loop
is threaded explicitly.
-/

namespace Carbon

/-- Shallow model of the protobuf FetchResponse message used by the render
path: name, start, stop and step times, the ordered sample values and the
parallel isAbsent flags. -/
structure FetchResponse where
  name : String
  startTime : Int
  stopTime : Int
  stepTime : Int
  values : List Int
  isAbsent : List Bool
  deriving Repr, DecidableEq, Inhabited

/-- Well-formedness of a FetchResponse: the values and isAbsent sequences
have equal length (the protobuf producer guarantees this; the Go code
indexes one by positions of the other). -/
def FetchResponse.wf (r : FetchResponse) : Prop :=
  r.values.length = r.isAbsent.length

/-- State mutated by mergeValues: the values and isAbsent slices of the
base (shared with decoded[0] through the metric pointer), the render error
counter, and the responseLengthMismatch flag. -/
structure MState where
  values : List Int
  isAbsent : List Bool
  renderErrors : Nat
  mismatch : Bool
  deriving Repr, DecidableEq

/-- Inner loop of mergeValues over decoded[1..] at base index i: a peer
whose values length differs from the base length bumps the render error
counter, sets responseLengthMismatch and breaks; a peer that has the
sample present copies its value into the base and clears the absent flag,
and the scan continues with the remaining peers (the Go loop has no break
after a successful fill). -/
def scanPeers (n i : Nat) : List FetchResponse → MState → MState
  | [], st => st
  | m :: rest, st =>
    if m.values.length ≠ n then
      { st with renderErrors := st.renderErrors + 1, mismatch := true }
    else if m.isAbsent.getD i true = false then
      scanPeers n i rest
        { st with values := st.values.set i (m.values.getD i 0),
                  isAbsent := st.isAbsent.set i false }
    else
      scanPeers n i rest st

/-- One iteration of the outer loop of mergeValues at index i: skip when
the base sample is present or a length mismatch was declared, otherwise
scan the peers for a replacement. -/
def mergeStep (n : Nat) (peers : List FetchResponse) (st : MState) (i : Nat) : MState :=
  if st.isAbsent.getD i false = false ∨ st.mismatch = true then st
  else scanPeers n i peers st

/-- Model of mergeValues: fill absent samples of the base metric from the
peers decoded[1..], returning the mutated base and the render error
counter. -/
def mergeValues (renderErrors : Nat) (metric : FetchResponse)
    (decoded : List FetchResponse) : FetchResponse × Nat :=
  let n := metric.values.length
  let st := (List.range n).foldl (mergeStep n (decoded.drop 1))
    ⟨metric.values, metric.isAbsent, renderErrors, false⟩
  ({ metric with values := st.values, isAbsent := st.isAbsent }, st.renderErrors)

/-- Replacement value installed at index i after scanning the given peers
in order when every peer has the base length: the last peer that has the
sample present wins, because the scan does not stop after a fill. -/
def fillAt (i : Nat) : List FetchResponse → Option Int
  | [] => none
  | m :: rest =>
    match fillAt i rest with
    | some v => some v
    | none => if m.isAbsent.getD i true = false then some (m.values.getD i 0) else none

/-- Index of the first true flag in an isAbsent sequence. -/
def firstAbsent : List Bool → Option Nat
  | [] => none
  | b :: rest => if b then some 0 else (firstAbsent rest).map (· + 1)

/-- Loop in handleRenderPB choosing the base: index of the first response
with the smallest step time (the strict comparison keeps the earliest). -/
def selectBase (decoded : List FetchResponse) : Nat :=
  (List.range decoded.length).foldl
    (fun highest i =>
      if (decoded.getD i default).stepTime < (decoded.getD highest default).stepTime
      then i else highest)
    0

/-- Parallel assignment decoded[0], decoded[h] = decoded[h], decoded[0]
moving the chosen base to position 0 of the working list. -/
def swapFront (l : List FetchResponse) (h : Nat) : List FetchResponse :=
  (l.set 0 (l.getD h default)).set h (l.getD 0 default)

/-- Status-relevant result of handleRenderPB: the first component is none
on the HTTP 500 path (no response decoded) and otherwise carries the
FetchResponse returned to the client; the second component is the render
error counter. Each input body is the decode result of one shard
response. -/
def handleRenderPB (renderErrors : Nat) (bodies : List (Option FetchResponse)) :
    Option FetchResponse × Nat :=
  let errs := renderErrors + (bodies.filter Option.isNone).length
  let decoded := bodies.filterMap id
  match decoded with
  | [] => (none, errs + 1)
  | [d] => (some d, errs)
  | _ =>
    let h := selectBase decoded
    let work := swapFront decoded h
    let metric := work.getD 0 default
    let merged := mergeValues errs metric work
    (some merged.1, merged.2)

/-- Decoded responses of the render path: protobuf decode results in shard
order, with bodies that failed to decode dropped. -/
def decodedOf (bodies : List (Option FetchResponse)) : List FetchResponse :=
  bodies.filterMap id

/-- Shallow model of the protobuf GlobMatch message: a metric path and
the leaf flag. -/
structure GlobMatch where
  path : String
  isLeaf : Bool
  deriving Repr, DecidableEq, Inhabited

/-- Shallow model of the protobuf GlobResponse message. -/
structure GlobResponse where
  name : String
  matchList : List GlobMatch
  deriving Repr, DecidableEq, Inhabited

/-- Shard response as consumed by findHandlerPB: the backend name and the
protobuf decode result of its body (none models bytes that fail to
decode). -/
structure ServerGlob where
  server : String
  body : Option GlobResponse
  deriving Repr, DecidableEq, Inhabited

/-- Lookup of a key in a path to backends association list, modelling a
Go map read. -/
def lookupPath (k : String) : List (String × List String) → Option (List String)
  | [] => none
  | kv :: rest => if kv.1 = k then some kv.2 else lookupPath k rest

/-- Overwrite-or-add of one key, modelling a Go map assignment. -/
def setPath : List (String × List String) → String → List String → List (String × List String)
  | [], k, v => [(k, v)]
  | kv :: rest, k, v => if kv.1 = k then (k, v) :: rest else kv :: setPath rest k v

/-- Body of the inner match loop of findHandlerPB: the first occurrence
of a path appends the match to the returned metrics; every occurrence
appends the reporting server to the path entry of the routing map. -/
def processMatch (server : String) (acc : List GlobMatch × List (String × List String))
    (m : GlobMatch) : List GlobMatch × List (String × List String) :=
  (if (lookupPath m.path acc.2).isSome then acc.1 else acc.1 ++ [m],
   setPath acc.2 m.path ((lookupPath m.path acc.2).getD [] ++ [server]))

/-- Result of findHandlerPB: the unioned metrics, the learned path to
servers map and the find error counter. -/
structure FindAcc where
  metrics : List GlobMatch
  paths : List (String × List String)
  findErrors : Nat
  deriving Repr, DecidableEq

/-- Model of findHandlerPB: bodies that fail to decode are counted and
skipped; each decoded response runs the match loop over its matches. -/
def findHandlerPB (findErrors : Nat) (responses : List ServerGlob) : FindAcc :=
  responses.foldl
    (fun acc r =>
      match r.body with
      | none => { acc with findErrors := acc.findErrors + 1 }
      | some g =>
        let p := g.matchList.foldl (processMatch r.server) (acc.metrics, acc.paths)
        { acc with metrics := p.1, paths := p.2 })
    ⟨[], [], findErrors⟩

/-- HTTP status outcome of findHandler. -/
inductive FindStatus where
  | serverError
  | ok (metrics : List GlobMatch)
  deriving Repr, DecidableEq

/-- Cache commit loop of findHandler: every aggregated path entry
overwrites the corresponding routing cache entry. -/
def updateCache (cache : List (String × List String))
    (paths : List (String × List String)) : List (String × List String) :=
  paths.foldl (fun c kv => setPath c kv.1 kv.2) cache

/-- Model of findHandler after the scatter phase: an empty response list
is the only HTTP 500 path; otherwise the handler aggregates, commits the
learned paths into the routing cache, and replies 200 with the metrics,
whether or not any body decoded. Returns the status, the new cache and
the find error counter. -/
def findHandler (findErrors : Nat) (cache : List (String × List String))
    (responses : List ServerGlob) : FindStatus × List (String × List String) × Nat :=
  if responses.length = 0 then (FindStatus.serverError, cache, findErrors)
  else
    let acc := findHandlerPB findErrors responses
    (FindStatus.ok acc.metrics, updateCache cache acc.paths, acc.findErrors)

/-- Flattened stream of (server, match) pairs of the decoded find
responses, in shard response order then match order. -/
def matchStream : List ServerGlob → List (String × GlobMatch)
  | [] => []
  | r :: rest =>
    (match r.body with
     | none => []
     | some g => g.matchList.map (fun m => (r.server, m))) ++ matchStream rest

/-- Backends contributing an occurrence of path p, in stream order and
with multiplicity. -/
def serversFor (p : String) : List (String × GlobMatch) → List String
  | [] => []
  | sm :: rest =>
    if sm.2.path = p then sm.1 :: serversFor p rest else serversFor p rest

/-- First-occurrence filter over the match stream: a match is kept
exactly when its path is not already seen, and then its path is added to
the seen set. -/
def firstOccurrences : (String → Bool) → List (String × GlobMatch) → List GlobMatch
  | _, [] => []
  | seen, sm :: rest =>
    if seen sm.2.path then firstOccurrences seen rest
    else sm.2 :: firstOccurrences (fun q => q == sm.2.path || seen q) rest

/-- The match loop of findHandlerPB as a fold over the flattened
stream. -/
def streamFold (acc : List GlobMatch × List (String × List String)) :
    List (String × GlobMatch) → List GlobMatch × List (String × List String)
  | [] => acc
  | sm :: rest => streamFold (processMatch sm.1 acc sm.2) rest

/-- HTTP routing decision of renderHandler. -/
inductive RenderRoute where
  | badRequest
  | scatter (servers : List String)
  deriving Repr, DecidableEq

/-- Server list selection of renderHandler: a missing, nil or empty
routing cache entry falls back to the configured backends; a nonempty
entry is used as is. -/
def renderServerList (cache : List (String × List String)) (backends : List String)
    (target : String) : List String :=
  match lookupPath target cache with
  | none => backends
  | some l => if l.length = 0 then backends else l

/-- Routing step of renderHandler before the scatter phase: an empty
target is HTTP 400; otherwise the scatter receives the routed server
list. -/
def renderRoute (cache : List (String × List String)) (backends : List String)
    (target : String) : RenderRoute :=
  if target = "" then RenderRoute.badRequest
  else RenderRoute.scatter (renderServerList cache backends target)

/-- Minimal JSON value model for the client facing encodings. -/
inductive Json where
  | null
  | bool (b : Bool)
  | num (n : Int)
  | str (s : String)
  | arr (xs : List Json)
  | obj (fields : List (String × Json))

/-- Keys of a JSON object, empty for every other value. -/
def jsonObjKeys : Json → List String
  | Json.obj fields => fields.map Prod.fst
  | _ => []

/-- Sample list built by createRenderResponse: the values with the absent
positions replaced by the missing sentinel. The Go loop indexes IsAbsent
by the positions of Values, modelled by zipping the two lists. -/
def renderValues (missing : Json) (values : List Int) (isAbsent : List Bool) : List Json :=
  (values.zip isAbsent).map (fun p => if p.2 then missing else Json.num p.1)

/-- Object form built by createRenderResponse: the Go map literal with
keys start, step, end, name, values. Go maps are unordered, so only the
key set is meaningful; the insertion order of the literal is kept
here. -/
def createRenderResponse (metric : FetchResponse) (missing : Json) :
    List (String × Json) :=
  [("start", Json.num metric.startTime),
   ("step", Json.num metric.stepTime),
   ("end", Json.num metric.stopTime),
   ("name", Json.str metric.name),
   ("values", Json.arr (renderValues missing metric.values metric.isAbsent))]

/-- JSON object produced for one GlobMatch by the json encoder in the
findHandler json branch, which hands the protobuf GlobMatch records to
the encoder directly. Modelled from the generated carbonzipperpb
bindings (an imported package, not part of this repository): their json
struct tags carry the protobuf field names path and isLeaf. -/
def globMatchJson (m : GlobMatch) : Json :=
  Json.obj [("path", Json.str m.path), ("isLeaf", Json.bool m.isLeaf)]

/-- Client payload of the findHandler json branch: the metrics list is
handed to the json encoder as is. -/
def findJsonBody (metrics : List GlobMatch) : Json :=
  Json.arr (metrics.map globMatchJson)

/-- Object form built for find results by the pickle branch of
findHandler: maps with keys metric_path and isLeaf. -/
def findPickleForm (metrics : List GlobMatch) : List (List (String × Json)) :=
  metrics.map (fun m => [("metric_path", Json.str m.path), ("isLeaf", Json.bool m.isLeaf)])

/-- Client payload of the returnRender json branch: createRenderResponse
with the missing sentinel nil, i.e. JSON null. -/
def renderJsonBody (metric : FetchResponse) : Json :=
  Json.obj (createRenderResponse metric Json.null)

/-- One singleGet worker report on the channel: the backend name and the
response body; none is the absent sentinel sent on transport errors, 404,
other bad status codes, and body read errors. -/
structure WireResponse where
  server : String
  body : Option (List Nat)
  deriving Repr, DecidableEq, Inhabited

/-- Coordinator state of the multiGet gather loop: the collected
successful responses, the isFirstResponse flag, the absolute deadline of
the active timer (time.After is modelled as now plus duration), and the
timeout counter. -/
structure GatherState where
  collected : List WireResponse
  isFirst : Bool
  deadline : Nat
  timeouts : Nat
  deriving Repr, DecidableEq

/-- Channel receive branch of the gather select at time t: a response
with a body is appended to the result list and, when it is the first
successful response, the timer is reset to tFirst measured from the
moment of receipt; an absent report changes nothing but still consumes
its loop iteration. -/
def gatherStep (tFirst : Nat) (st : GatherState) (t : Nat) (r : WireResponse) :
    GatherState :=
  if r.body.isSome then
    { st with collected := st.collected ++ [r],
              deadline := if st.isFirst then t + tFirst else st.deadline,
              isFirst := false }
  else st

/-- Gather loop of multiGet over the timed arrival sequence, one entry
per dispatched worker in channel order: every iteration either receives
the next arrival, when it comes no later than the active deadline, or
fires the timer, counts a timeout and breaks. -/
def gatherLoop (tFirst : Nat) : List (Nat × WireResponse) → GatherState → GatherState
  | [], st => st
  | (t, r) :: rest, st =>
    if st.deadline < t then { st with timeouts := st.timeouts + 1 }
    else gatherLoop tFirst rest (gatherStep tFirst st t r)

/-- Model of multiGet: dispatch at time t0 under the overall deadline
tTotal, then gather. The arrival list carries one entry per server of
the scatter set, because every singleGet worker sends exactly one report
on the buffered channel. -/
def multiGet (tTotal tFirst t0 : Nat) (arrivals : List (Nat × WireResponse)) :
    GatherState :=
  gatherLoop tFirst arrivals ⟨[], true, t0 + tTotal, 0⟩

theorem getD_set_eq_of_lt {α : Type} (l : List α) (i : Nat) (a d : α) (h : i < l.length) :
    (l.set i a).getD i d = a := by
  simp [List.getD, List.getElem?_set_self, h]

theorem getD_set_ne {α : Type} (l : List α) (i j : Nat) (a d : α) (h : i ≠ j) :
    (l.set i a).getD j d = l.getD j d := by
  simp [List.getD, List.getElem?_set_ne h]

theorem scanPeers_all_eq (n i : Nat) (peers : List FetchResponse) (st : MState)
    (h : ∀ p ∈ peers, p.values.length = n) :
    scanPeers n i peers st =
      match fillAt i peers with
      | none => st
      | some v =>
          { st with values := st.values.set i v, isAbsent := st.isAbsent.set i false } := by
  induction peers generalizing st with
  | nil => rfl
  | cons m rest ih =>
    have hm : m.values.length = n := h m (by simp)
    have hrest : ∀ p ∈ rest, p.values.length = n := fun p hp => h p (by simp [hp])
    rw [scanPeers, if_neg (by simp [hm])]
    by_cases hpres : m.isAbsent.getD i true = false
    · rw [if_pos hpres, ih _ hrest]
      cases hfr : fillAt i rest with
      | none =>
        simp only [fillAt, hfr]
        rw [if_pos hpres]
      | some v =>
        simp only [fillAt, hfr, List.set_set]
    · rw [if_neg hpres, ih _ hrest]
      cases hfr : fillAt i rest with
      | none =>
        simp only [fillAt, hfr]
        rw [if_neg hpres]
      | some v =>
        simp only [fillAt, hfr]

theorem scanPeers_getD_ne (n i : Nat) (peers : List FetchResponse) (st : MState) (j : Nat)
    (hj : j ≠ i) :
    (scanPeers n i peers st).values.getD j 0 = st.values.getD j 0 ∧
    (scanPeers n i peers st).isAbsent.getD j false = st.isAbsent.getD j false := by
  induction peers generalizing st with
  | nil => exact ⟨rfl, rfl⟩
  | cons m rest ih =>
    rw [scanPeers]
    by_cases hlen : m.values.length ≠ n
    · rw [if_pos hlen]; exact ⟨rfl, rfl⟩
    · rw [if_neg hlen]
      by_cases hpres : m.isAbsent.getD i true = false
      · rw [if_pos hpres]
        refine ⟨(ih _).1.trans ?_, (ih _).2.trans ?_⟩
        · exact getD_set_ne _ i j _ _ (fun h => hj h.symm)
        · exact getD_set_ne _ i j _ _ (fun h => hj h.symm)
      · rw [if_neg hpres]; exact ih st

theorem scanPeers_lengths (n i : Nat) (peers : List FetchResponse) (st : MState) :
    (scanPeers n i peers st).values.length = st.values.length ∧
    (scanPeers n i peers st).isAbsent.length = st.isAbsent.length := by
  induction peers generalizing st with
  | nil => exact ⟨rfl, rfl⟩
  | cons m rest ih =>
    rw [scanPeers]
    by_cases hlen : m.values.length ≠ n
    · rw [if_pos hlen]; exact ⟨rfl, rfl⟩
    · rw [if_neg hlen]
      by_cases hpres : m.isAbsent.getD i true = false
      · rw [if_pos hpres]
        refine ⟨(ih _).1.trans ?_, (ih _).2.trans ?_⟩ <;> simp
      · rw [if_neg hpres]; exact ih st

theorem foldl_mergeStep_skip (n : Nat) (peers : List FetchResponse) (L : List Nat)
    (st : MState) (h : ∀ j ∈ L, st.isAbsent.getD j false = false) :
    L.foldl (mergeStep n peers) st = st := by
  induction L with
  | nil => rfl
  | cons a L ih =>
    rw [List.foldl_cons, mergeStep, if_pos (Or.inl (h a (by simp)))]
    exact ih (fun j hj => h j (by simp [hj]))

theorem foldl_mergeStep_mismatch (n : Nat) (peers : List FetchResponse) (L : List Nat)
    (st : MState) (h : st.mismatch = true) :
    L.foldl (mergeStep n peers) st = st := by
  induction L with
  | nil => rfl
  | cons a L ih =>
    rw [List.foldl_cons, mergeStep, if_pos (Or.inr h)]
    exact ih

theorem foldl_mergeStep_getD_notMem (n : Nat) (peers : List FetchResponse) (L : List Nat)
    (st : MState) (j : Nat) (hj : j ∉ L) :
    (L.foldl (mergeStep n peers) st).values.getD j 0 = st.values.getD j 0 ∧
    (L.foldl (mergeStep n peers) st).isAbsent.getD j false = st.isAbsent.getD j false := by
  induction L generalizing st with
  | nil => exact ⟨rfl, rfl⟩
  | cons a L ih =>
    have hja : j ≠ a := fun h => hj (by simp [h])
    have hjL : j ∉ L := fun h => hj (by simp [h])
    rw [List.foldl_cons]
    have hstep : (mergeStep n peers st a).values.getD j 0 = st.values.getD j 0 ∧
        (mergeStep n peers st a).isAbsent.getD j false = st.isAbsent.getD j false := by
      rw [mergeStep]
      by_cases hc : st.isAbsent.getD a false = false ∨ st.mismatch = true
      · rw [if_pos hc]; exact ⟨rfl, rfl⟩
      · rw [if_neg hc]; exact scanPeers_getD_ne n a peers st j hja
    obtain ⟨h1, h2⟩ := ih (mergeStep n peers st a) hjL
    exact ⟨h1.trans hstep.1, h2.trans hstep.2⟩

theorem mergeStep_getD_ne (n : Nat) (peers : List FetchResponse) (st : MState) (a j : Nat)
    (hja : j ≠ a) :
    (mergeStep n peers st a).values.getD j 0 = st.values.getD j 0 ∧
    (mergeStep n peers st a).isAbsent.getD j false = st.isAbsent.getD j false := by
  rw [mergeStep]
  by_cases hc : st.isAbsent.getD a false = false ∨ st.mismatch = true
  · rw [if_pos hc]; exact ⟨rfl, rfl⟩
  · rw [if_neg hc]; exact scanPeers_getD_ne n a peers st j hja

theorem mergeStep_lengths (n : Nat) (peers : List FetchResponse) (st : MState) (a : Nat) :
    (mergeStep n peers st a).values.length = st.values.length ∧
    (mergeStep n peers st a).isAbsent.length = st.isAbsent.length := by
  rw [mergeStep]
  by_cases hc : st.isAbsent.getD a false = false ∨ st.mismatch = true
  · rw [if_pos hc]; exact ⟨rfl, rfl⟩
  · rw [if_neg hc]; exact scanPeers_lengths n a peers st

theorem mergeStep_all_eq_state (n : Nat) (peers : List FetchResponse)
    (hpeers : ∀ p ∈ peers, p.values.length = n) (st : MState) (a : Nat) :
    (mergeStep n peers st a).mismatch = st.mismatch ∧
    (mergeStep n peers st a).renderErrors = st.renderErrors := by
  rw [mergeStep]
  by_cases hc : st.isAbsent.getD a false = false ∨ st.mismatch = true
  · rw [if_pos hc]; exact ⟨rfl, rfl⟩
  · rw [if_neg hc, scanPeers_all_eq n a peers st hpeers]
    cases fillAt a peers <;> exact ⟨rfl, rfl⟩

theorem foldl_mergeStep_all_eq_state (n : Nat) (peers : List FetchResponse)
    (hpeers : ∀ p ∈ peers, p.values.length = n) (L : List Nat) (st : MState) :
    (L.foldl (mergeStep n peers) st).mismatch = st.mismatch ∧
    (L.foldl (mergeStep n peers) st).renderErrors = st.renderErrors := by
  induction L generalizing st with
  | nil => exact ⟨rfl, rfl⟩
  | cons a L ih =>
    rw [List.foldl_cons]
    obtain ⟨h1, h2⟩ := ih (mergeStep n peers st a)
    obtain ⟨k1, k2⟩ := mergeStep_all_eq_state n peers hpeers st a
    exact ⟨h1.trans k1, h2.trans k2⟩

theorem foldl_mergeStep_getD_mem (n : Nat) (peers : List FetchResponse)
    (hpeers : ∀ p ∈ peers, p.values.length = n) (L : List Nat) (st : MState)
    (hmm : st.mismatch = false) (j : Nat) (hj : j ∈ L) (hnd : L.Nodup)
    (hjv : j < st.values.length) (hja : j < st.isAbsent.length) :
    ((L.foldl (mergeStep n peers) st).values.getD j 0 =
        if st.isAbsent.getD j false = true then
          (fillAt j peers).getD (st.values.getD j 0)
        else st.values.getD j 0) ∧
    ((L.foldl (mergeStep n peers) st).isAbsent.getD j false =
        if st.isAbsent.getD j false = true ∧ (fillAt j peers).isSome then false
        else st.isAbsent.getD j false) := by
  induction L generalizing st with
  | nil => cases hj
  | cons a L ih =>
    rw [List.foldl_cons]
    rcases List.mem_cons.mp hj with rfl | hjL
    · have hjnotL : j ∉ L := (List.nodup_cons.mp hnd).1
      obtain ⟨h1, h2⟩ := foldl_mergeStep_getD_notMem n peers L (mergeStep n peers st j) j hjnotL
      rw [h1, h2, mergeStep]
      by_cases habs : st.isAbsent.getD j false = false
      · rw [if_pos (Or.inl habs), habs]
        simp
      · have habs2 : st.isAbsent.getD j false = true := by
          revert habs; cases st.isAbsent.getD j false <;> simp
        rw [if_neg (by rw [habs2, hmm]; simp), scanPeers_all_eq n j peers st hpeers]
        cases hf : fillAt j peers with
        | none => simp [habs2, hf]
        | some v =>
          constructor
          · simp only [habs2, hf, if_pos]
            simpa using getD_set_eq_of_lt st.values j v 0 hjv
          · simp only [habs2, hf, Option.isSome_some, and_true, if_pos]
            simpa using getD_set_eq_of_lt st.isAbsent j false false hja
    · have haj : j ≠ a := fun h => (List.nodup_cons.mp hnd).1 (h ▸ hjL)
      obtain ⟨p1, p2⟩ := mergeStep_getD_ne n peers st a j haj
      obtain ⟨m1, _⟩ := mergeStep_all_eq_state n peers hpeers st a
      obtain ⟨l1, l2⟩ := mergeStep_lengths n peers st a
      obtain ⟨k1, k2⟩ := ih (mergeStep n peers st a) (m1.trans hmm) hjL
        (List.nodup_cons.mp hnd).2 (l1 ▸ hjv) (l2 ▸ hja)
      rw [k1, k2, p1, p2]
      exact ⟨rfl, rfl⟩

/-- C1 (amended form): in a merge where every response has the base value
length, the merged sample at index i is the base sample when the base has
it present; otherwise it is the value of the last peer, in peer order,
that has the sample present (fillAt); otherwise it stays absent. The
render error counter is unchanged. -/
theorem mergeValues_sample_merge (e : Nat) (base : FetchResponse)
    (decoded : List FetchResponse) (i : Nat)
    (hwf : base.wf)
    (hlen : ∀ p ∈ decoded.drop 1, p.values.length = base.values.length)
    (hi : i < base.values.length) :
    ((mergeValues e base decoded).1.values.getD i 0 =
        if base.isAbsent.getD i false = true then
          (fillAt i (decoded.drop 1)).getD (base.values.getD i 0)
        else base.values.getD i 0) ∧
    ((mergeValues e base decoded).1.isAbsent.getD i false =
        if base.isAbsent.getD i false = true ∧ (fillAt i (decoded.drop 1)).isSome then false
        else base.isAbsent.getD i false) ∧
    (mergeValues e base decoded).2 = e := by
  have hja : i < base.isAbsent.length := hwf ▸ hi
  obtain ⟨h1, h2⟩ := foldl_mergeStep_getD_mem base.values.length (decoded.drop 1) hlen
    (List.range base.values.length) ⟨base.values, base.isAbsent, e, false⟩ rfl i
    (List.mem_range.mpr hi) (List.nodup_range _) hi hja
  obtain ⟨_, he⟩ := foldl_mergeStep_all_eq_state base.values.length (decoded.drop 1) hlen
    (List.range base.values.length) ⟨base.values, base.isAbsent, e, false⟩
  exact ⟨h1, h2, he⟩

/-- C1 counterexample: base absent at index 0, two peers both present
there; the merged value is the value of the second peer, not of the
first, so scanning does not stop once a present value is found. -/
theorem mergeValues_first_peer_cex :
    ((mergeValues 0 ⟨"m", 0, 3, 1, [0], [true]⟩
        [⟨"m", 0, 3, 1, [0], [true]⟩, ⟨"m", 0, 3, 1, [1], [false]⟩,
         ⟨"m", 0, 3, 1, [2], [false]⟩]).1.values = [2]) ∧
    ((mergeValues 0 ⟨"m", 0, 3, 1, [0], [true]⟩
        [⟨"m", 0, 3, 1, [0], [true]⟩, ⟨"m", 0, 3, 1, [1], [false]⟩,
         ⟨"m", 0, 3, 1, [2], [false]⟩]).1.values ≠ [1]) := by decide

/-- Witness for the amended C1 theorem at a concrete merge: the absent
sample at index 1 is filled with 8, the value of the only present peer. -/
theorem mergeValues_sample_merge_witness :
    (mergeValues 0 ⟨"m", 0, 2, 1, [5, 0], [false, true]⟩
      [⟨"m", 0, 2, 1, [5, 0], [false, true]⟩,
       ⟨"m", 0, 2, 1, [7, 8], [false, false]⟩]).1.values.getD 1 0 = 8 := by
  have h := (mergeValues_sample_merge 0 ⟨"m", 0, 2, 1, [5, 0], [false, true]⟩
    [⟨"m", 0, 2, 1, [5, 0], [false, true]⟩, ⟨"m", 0, 2, 1, [7, 8], [false, false]⟩] 1
    rfl (by decide) (by decide)).1
  rw [h]; decide

theorem getD_false_of_all_false (l : List Bool) (h : ∀ b ∈ l, b = false) (j : Nat) :
    l.getD j false = false := by
  by_cases hj : j < l.length
  · rw [List.getD_eq_getElem l false hj]
    exact h _ (List.getElem_mem hj)
  · exact List.getD_eq_default l false (by omega)

/-- C10: when the base marks no sample absent, the outer loop of
mergeValues skips every index, so no peer is ever examined: a peer of
mismatched length is never detected, the render error counter is
unchanged, and the base is returned unchanged. -/
theorem mergeValues_all_present (e : Nat) (base : FetchResponse)
    (decoded : List FetchResponse)
    (h : ∀ b ∈ base.isAbsent, b = false) :
    mergeValues e base decoded = (base, e) := by
  simp only [mergeValues]
  rw [foldl_mergeStep_skip _ _ _ _ (fun j _ => getD_false_of_all_false base.isAbsent h j)]

/-- Witness for the C10 theorem: a peer of mismatched length (5 against a
base of length 2) goes undetected because the base has no absent sample;
the base and the counter come back unchanged. -/
theorem mergeValues_all_present_witness :
    mergeValues 3 ⟨"m", 0, 2, 1, [5, 6], [false, false]⟩
      [⟨"m", 0, 2, 1, [5, 6], [false, false]⟩,
       ⟨"m", 0, 5, 1, [1, 2, 3, 4, 5], [false, false, false, false, false]⟩]
      = (⟨"m", 0, 2, 1, [5, 6], [false, false]⟩, 3) :=
  mergeValues_all_present 3 ⟨"m", 0, 2, 1, [5, 6], [false, false]⟩
    [⟨"m", 0, 2, 1, [5, 6], [false, false]⟩,
     ⟨"m", 0, 5, 1, [1, 2, 3, 4, 5], [false, false, false, false, false]⟩]
    (by decide)

theorem firstAbsent_spec (flags : List Bool) (i0 : Nat) (h : firstAbsent flags = some i0) :
    i0 < flags.length ∧ flags.getD i0 false = true ∧ ∀ j < i0, flags.getD j false = false := by
  induction flags generalizing i0 with
  | nil => cases h
  | cons b rest ih =>
    rw [firstAbsent] at h
    by_cases hb : b = true
    · rw [if_pos hb] at h
      obtain rfl : (0 : Nat) = i0 := Option.some.inj h
      exact ⟨by simp, by simp [hb], fun j hj => absurd hj (by omega)⟩
    · rw [if_neg hb] at h
      cases hf : firstAbsent rest with
      | none => rw [hf] at h; cases h
      | some k =>
        rw [hf] at h
        obtain rfl : k + 1 = i0 := Option.some.inj h
        obtain ⟨h1, h2, h3⟩ := ih k hf
        refine ⟨by simp; omega, by simpa using h2, ?_⟩
        intro j hj
        cases j with
        | zero => simpa using (Bool.eq_false_iff.mpr (by simpa using hb))
        | succ j2 => simpa using h3 j2 (by omega)

theorem takeWhile_split {α : Type} (p : α → Bool) (l : List α) (h : ∃ x ∈ l, p x = false) :
    ∃ bad rest, l = l.takeWhile p ++ bad :: rest ∧ p bad = false := by
  induction l with
  | nil =>
    obtain ⟨x, hx, _⟩ := h
    cases hx
  | cons a l ih =>
    by_cases ha : p a = true
    · obtain ⟨x, hx, hpx⟩ := h
      have hxl : x ∈ l := by
        rcases List.mem_cons.mp hx with rfl | h2
        · rw [ha] at hpx; cases hpx
        · exact h2
      obtain ⟨bad, rest, heq, hbad⟩ := ih ⟨x, hxl, hpx⟩
      refine ⟨bad, rest, ?_, hbad⟩
      rw [List.takeWhile_cons, if_pos ha, List.cons_append]
      exact congrArg (a :: ·) heq
    · refine ⟨a, l, ?_, Bool.eq_false_iff.mpr ha⟩
      rw [List.takeWhile_cons, if_neg ha, List.nil_append]

theorem range_split_at (n i : Nat) (h : i < n) :
    List.range n = List.range i ++ (i :: List.range' (i + 1) (n - i - 1)) := by
  have h2 : n - i + i = n := by omega
  have h3 := List.range'_append 0 i (n - i) 1
  simp [h2] at h3
  rw [show List.range n = List.range' 0 n from List.range_eq_range' n,
      show List.range i = List.range' 0 i from List.range_eq_range' i, ← h3]
  congr 1
  obtain ⟨k, hk⟩ : ∃ k, n - i = k + 1 := ⟨n - i - 1, by omega⟩
  rw [hk, List.range'_succ]
  simp

theorem scanPeers_mismatch (n i : Nat) (pre : List FetchResponse) (bad : FetchResponse)
    (rest : List FetchResponse) (st : MState)
    (hpre : ∀ p ∈ pre, p.values.length = n) (hbad : bad.values.length ≠ n) :
    scanPeers n i (pre ++ bad :: rest) st =
      match fillAt i pre with
      | none => { st with renderErrors := st.renderErrors + 1, mismatch := true }
      | some v =>
          { st with values := st.values.set i v, isAbsent := st.isAbsent.set i false,
                    renderErrors := st.renderErrors + 1, mismatch := true } := by
  induction pre generalizing st with
  | nil =>
    simp only [List.nil_append, fillAt]
    rw [scanPeers, if_pos hbad]
  | cons m pre ih =>
    have hm : m.values.length = n := hpre m (by simp)
    have hpre2 : ∀ p ∈ pre, p.values.length = n := fun p hp => hpre p (by simp [hp])
    rw [List.cons_append, scanPeers, if_neg (by simp [hm])]
    by_cases hpres : m.isAbsent.getD i true = false
    · rw [if_pos hpres, ih _ hpre2]
      cases hfr : fillAt i pre with
      | none =>
        simp only [fillAt, hfr]
        rw [if_pos hpres]
      | some v =>
        simp only [fillAt, hfr, List.set_set]
    · rw [if_neg hpres, ih _ hpre2]
      cases hfr : fillAt i pre with
      | none =>
        simp only [fillAt, hfr]
        rw [if_neg hpres]
      | some v =>
        simp only [fillAt, hfr]

/-- C3: when some peer has a value length different from the base length
and the base has an absent sample, the scan at the first absent index i0
runs through the equal-length peer prefix, filling i0 from the last
present peer of that prefix if any, then detects the mismatched peer: the
render error counter is incremented exactly once, no further filling from
any peer happens at any other index, and the response is the base plus
the fills made before detection. -/
theorem mergeValues_length_mismatch (e : Nat) (base : FetchResponse)
    (decoded : List FetchResponse) (i0 : Nat)
    (hwf : base.wf)
    (hbad : ∃ p ∈ decoded.drop 1, p.values.length ≠ base.values.length)
    (hfa : firstAbsent base.isAbsent = some i0) :
    ((mergeValues e base decoded).2 = e + 1) ∧
    ((mergeValues e base decoded).1.values =
        match fillAt i0 ((decoded.drop 1).takeWhile
            (fun p => p.values.length == base.values.length)) with
        | none => base.values
        | some v => base.values.set i0 v) ∧
    ((mergeValues e base decoded).1.isAbsent =
        match fillAt i0 ((decoded.drop 1).takeWhile
            (fun p => p.values.length == base.values.length)) with
        | none => base.isAbsent
        | some _ => base.isAbsent.set i0 false) ∧
    (∀ j, j ≠ i0 →
        (mergeValues e base decoded).1.values.getD j 0 = base.values.getD j 0 ∧
        (mergeValues e base decoded).1.isAbsent.getD j false = base.isAbsent.getD j false) := by
  obtain ⟨hlt, hi0t, hi0f⟩ := firstAbsent_spec base.isAbsent i0 hfa
  have hltn : i0 < base.values.length := by rw [hwf]; exact hlt
  obtain ⟨bad, rest, heq, hbadp⟩ :=
    takeWhile_split (fun p => p.values.length == base.values.length) (decoded.drop 1)
      (by obtain ⟨p, hp, hpn⟩ := hbad; exact ⟨p, hp, by simpa using hpn⟩)
  have hpre : ∀ p ∈ (decoded.drop 1).takeWhile
      (fun p => p.values.length == base.values.length),
      p.values.length = base.values.length := by
    intro p hp
    simpa using List.mem_takeWhile_imp hp
  have hbadn : bad.values.length ≠ base.values.length := by simpa using hbadp
  have hguard : ¬((⟨base.values, base.isAbsent, e, false⟩ : MState).isAbsent.getD i0 false = false
      ∨ (⟨base.values, base.isAbsent, e, false⟩ : MState).mismatch = true) := by
    intro hcon
    rcases hcon with h1 | h1
    · have h2 : base.isAbsent.getD i0 false = false := h1
      rw [hi0t] at h2
      exact absurd h2 (by simp)
    · exact absurd h1 (by simp)
  have hrun : (List.range base.values.length).foldl
      (mergeStep base.values.length (decoded.drop 1))
      ⟨base.values, base.isAbsent, e, false⟩ =
      match fillAt i0 ((decoded.drop 1).takeWhile
          (fun p => p.values.length == base.values.length)) with
      | none => ⟨base.values, base.isAbsent, e + 1, true⟩
      | some v => ⟨base.values.set i0 v, base.isAbsent.set i0 false, e + 1, true⟩ := by
    rw [range_split_at base.values.length i0 hltn, List.foldl_append,
      foldl_mergeStep_skip _ _ _ _ (fun j hj => hi0f j (List.mem_range.mp hj)),
      List.foldl_cons,
      show mergeStep base.values.length (decoded.drop 1)
          ⟨base.values, base.isAbsent, e, false⟩ i0 =
        scanPeers base.values.length i0 (decoded.drop 1)
          ⟨base.values, base.isAbsent, e, false⟩ from by
        rw [mergeStep, if_neg hguard]]
    rw [show scanPeers base.values.length i0 (decoded.drop 1)
          ⟨base.values, base.isAbsent, e, false⟩ =
        scanPeers base.values.length i0
          ((decoded.drop 1).takeWhile
            (fun p => p.values.length == base.values.length) ++ bad :: rest)
          ⟨base.values, base.isAbsent, e, false⟩ from by rw [← heq]]
    rw [scanPeers_mismatch base.values.length i0 _ bad rest _ hpre hbadn]
    cases hf : fillAt i0 ((decoded.drop 1).takeWhile
        (fun p => p.values.length == base.values.length)) with
    | none => exact foldl_mergeStep_mismatch _ _ _ _ rfl
    | some v => exact foldl_mergeStep_mismatch _ _ _ _ rfl
  refine ⟨?_, ?_, ?_, ?_⟩
  · show ((List.range base.values.length).foldl
      (mergeStep base.values.length (decoded.drop 1))
      ⟨base.values, base.isAbsent, e, false⟩).renderErrors = e + 1
    rw [hrun]
    cases fillAt i0 ((decoded.drop 1).takeWhile
      (fun p => p.values.length == base.values.length)) <;> rfl
  · show ((List.range base.values.length).foldl
      (mergeStep base.values.length (decoded.drop 1))
      ⟨base.values, base.isAbsent, e, false⟩).values = _
    rw [hrun]
    cases fillAt i0 ((decoded.drop 1).takeWhile
      (fun p => p.values.length == base.values.length)) <;> rfl
  · show ((List.range base.values.length).foldl
      (mergeStep base.values.length (decoded.drop 1))
      ⟨base.values, base.isAbsent, e, false⟩).isAbsent = _
    rw [hrun]
    cases fillAt i0 ((decoded.drop 1).takeWhile
      (fun p => p.values.length == base.values.length)) <;> rfl
  · intro j hj
    constructor
    · show ((List.range base.values.length).foldl
        (mergeStep base.values.length (decoded.drop 1))
        ⟨base.values, base.isAbsent, e, false⟩).values.getD j 0 = _
      rw [hrun]
      cases fillAt i0 ((decoded.drop 1).takeWhile
        (fun p => p.values.length == base.values.length)) with
      | none => rfl
      | some v => exact getD_set_ne base.values i0 j v 0 (fun h => hj h.symm)
    · show ((List.range base.values.length).foldl
        (mergeStep base.values.length (decoded.drop 1))
        ⟨base.values, base.isAbsent, e, false⟩).isAbsent.getD j false = _
      rw [hrun]
      cases fillAt i0 ((decoded.drop 1).takeWhile
        (fun p => p.values.length == base.values.length)) with
      | none => rfl
      | some v => exact getD_set_ne base.isAbsent i0 j false false (fun h => hj h.symm)

/-- Witness for the C3 theorem: base of length 4 absent at index 1, an
equal-length peer that fills it with 7, then a peer of length 5 that
triggers the mismatch; the counter goes from 0 to 1, the fill at index 1
is kept, and the absent sample at index 3 is never filled. -/
theorem mergeValues_length_mismatch_witness :
    (mergeValues 0 ⟨"m", 0, 4, 1, [1, 0, 3, 0], [false, true, false, true]⟩
      [⟨"m", 0, 4, 1, [1, 0, 3, 0], [false, true, false, true]⟩,
       ⟨"m", 0, 4, 1, [9, 7, 9, 9], [false, false, false, false]⟩,
       ⟨"m", 0, 5, 1, [1, 2, 3, 4, 5], [false, false, false, false, false]⟩]).2 = 1 ∧
    (mergeValues 0 ⟨"m", 0, 4, 1, [1, 0, 3, 0], [false, true, false, true]⟩
      [⟨"m", 0, 4, 1, [1, 0, 3, 0], [false, true, false, true]⟩,
       ⟨"m", 0, 4, 1, [9, 7, 9, 9], [false, false, false, false]⟩,
       ⟨"m", 0, 5, 1, [1, 2, 3, 4, 5], [false, false, false, false, false]⟩]).1.values
      = [1, 7, 3, 0] := by
  have h := mergeValues_length_mismatch 0
    ⟨"m", 0, 4, 1, [1, 0, 3, 0], [false, true, false, true]⟩
    [⟨"m", 0, 4, 1, [1, 0, 3, 0], [false, true, false, true]⟩,
     ⟨"m", 0, 4, 1, [9, 7, 9, 9], [false, false, false, false]⟩,
     ⟨"m", 0, 5, 1, [1, 2, 3, 4, 5], [false, false, false, false, false]⟩] 1
    rfl (by decide) (by decide)
  refine ⟨h.1, ?_⟩
  rw [h.2.1]
  decide

theorem selectBase_prefix_spec (l : List FetchResponse) (hne : 0 < l.length) (k : Nat)
    (hk : k ≤ l.length) :
    ((List.range k).foldl
      (fun highest i =>
        if (l.getD i default).stepTime < (l.getD highest default).stepTime then i else highest)
      0) < l.length ∧
    (∀ j < k,
      (l.getD ((List.range k).foldl
        (fun highest i =>
          if (l.getD i default).stepTime < (l.getD highest default).stepTime then i else highest)
        0) default).stepTime ≤ (l.getD j default).stepTime) ∧
    (∀ j < ((List.range k).foldl
        (fun highest i =>
          if (l.getD i default).stepTime < (l.getD highest default).stepTime then i else highest)
        0),
      (l.getD ((List.range k).foldl
        (fun highest i =>
          if (l.getD i default).stepTime < (l.getD highest default).stepTime then i else highest)
        0) default).stepTime < (l.getD j default).stepTime) := by
  induction k with
  | zero =>
    simp only [List.range_zero, List.foldl_nil]
    exact ⟨hne, fun j hj => absurd hj (by omega), fun j hj => absurd hj (by omega)⟩
  | succ k ih =>
    obtain ⟨h1, h2, h3⟩ := ih (by omega)
    rw [List.range_succ, List.foldl_append, List.foldl_cons, List.foldl_nil]
    by_cases hc : (l.getD k default).stepTime <
        (l.getD ((List.range k).foldl
          (fun highest i =>
            if (l.getD i default).stepTime < (l.getD highest default).stepTime then i else highest)
          0) default).stepTime
    · rw [if_pos hc]
      refine ⟨by omega, ?_, ?_⟩
      · intro j hj
        rcases Nat.lt_succ_iff_lt_or_eq.mp hj with hj2 | rfl
        · exact le_of_lt (lt_of_lt_of_le hc (h2 j hj2))
        · exact le_refl _
      · intro j hj
        exact lt_of_lt_of_le hc (h2 j hj)
    · rw [if_neg hc]
      refine ⟨h1, ?_, h3⟩
      intro j hj
      rcases Nat.lt_succ_iff_lt_or_eq.mp hj with hj2 | rfl
      · exact h2 j hj2
      · exact le_of_not_lt hc

theorem selectBase_spec (l : List FetchResponse) (hne : 0 < l.length) :
    selectBase l < l.length ∧
    (∀ j < l.length,
      (l.getD (selectBase l) default).stepTime ≤ (l.getD j default).stepTime) ∧
    (∀ j < selectBase l,
      (l.getD (selectBase l) default).stepTime < (l.getD j default).stepTime) :=
  selectBase_prefix_spec l hne l.length (le_refl _)

theorem swapFront_getD_zero (l : List FetchResponse) (h : Nat) (h0 : 0 < l.length) :
    (swapFront l h).getD 0 default = l.getD h default := by
  rw [swapFront]
  by_cases hz : h = 0
  · subst hz
    rw [List.set_set]
    exact getD_set_eq_of_lt l 0 _ _ h0
  · rw [getD_set_ne _ h 0 _ _ hz]
    exact getD_set_eq_of_lt l 0 _ _ (by simpa using h0)

theorem mergeValues_metadata (e : Nat) (m : FetchResponse) (d : List FetchResponse) :
    (mergeValues e m d).1.name = m.name ∧
    (mergeValues e m d).1.startTime = m.startTime ∧
    (mergeValues e m d).1.stopTime = m.stopTime ∧
    (mergeValues e m d).1.stepTime = m.stepTime :=
  ⟨rfl, rfl, rfl, rfl⟩

/-- C4: a single decoded response is returned verbatim; with two or more,
the base is the first response with the smallest step time, the swap puts
it at position 0 of the working list, and the merged response returned to
the client carries the metadata (name, start, stop, step) of that base. -/
theorem handleRenderPB_base_selection (e : Nat) (bodies : List (Option FetchResponse)) :
    (∀ d, decodedOf bodies = [d] → (handleRenderPB e bodies).1 = some d) ∧
    (2 ≤ (decodedOf bodies).length →
      (selectBase (decodedOf bodies) < (decodedOf bodies).length ∧
        (∀ j < (decodedOf bodies).length,
          ((decodedOf bodies).getD (selectBase (decodedOf bodies)) default).stepTime ≤
            ((decodedOf bodies).getD j default).stepTime) ∧
        (∀ j < selectBase (decodedOf bodies),
          ((decodedOf bodies).getD (selectBase (decodedOf bodies)) default).stepTime <
            ((decodedOf bodies).getD j default).stepTime)) ∧
      (swapFront (decodedOf bodies) (selectBase (decodedOf bodies))).getD 0 default =
        (decodedOf bodies).getD (selectBase (decodedOf bodies)) default ∧
      (∃ m, (handleRenderPB e bodies).1 = some m ∧
        m.name = ((decodedOf bodies).getD (selectBase (decodedOf bodies)) default).name ∧
        m.startTime =
          ((decodedOf bodies).getD (selectBase (decodedOf bodies)) default).startTime ∧
        m.stopTime =
          ((decodedOf bodies).getD (selectBase (decodedOf bodies)) default).stopTime ∧
        m.stepTime =
          ((decodedOf bodies).getD (selectBase (decodedOf bodies)) default).stepTime)) := by
  constructor
  · intro d hd
    simp only [decodedOf] at hd
    simp only [handleRenderPB, hd]
  · intro hlen
    simp only [decodedOf] at hlen ⊢
    have h0 : 0 < (bodies.filterMap id).length := by omega
    obtain ⟨hsel, hmin, hfirst⟩ := selectBase_spec (bodies.filterMap id) h0
    have hswap := swapFront_getD_zero (bodies.filterMap id)
      (selectBase (bodies.filterMap id)) h0
    refine ⟨⟨hsel, hmin, hfirst⟩, hswap, ?_⟩
    cases hdec : bodies.filterMap id with
    | nil => rw [hdec] at hlen; simp at hlen
    | cons a tl =>
      cases tl with
      | nil => rw [hdec] at hlen; simp at hlen
      | cons b t =>
        rw [hdec] at hswap
        refine ⟨(mergeValues (e + (bodies.filter Option.isNone).length)
          ((swapFront (a :: b :: t) (selectBase (a :: b :: t))).getD 0 default)
          (swapFront (a :: b :: t) (selectBase (a :: b :: t)))).1, ?_, ?_, ?_, ?_, ?_⟩
        · simp only [handleRenderPB, hdec]
        · rw [(mergeValues_metadata _ _ _).1, hswap]
        · rw [(mergeValues_metadata _ _ _).2.1, hswap]
        · rw [(mergeValues_metadata _ _ _).2.2.1, hswap]
        · rw [(mergeValues_metadata _ _ _).2.2.2, hswap]

/-- Witness for the C4 theorem: a lone decoded response comes back
verbatim, and in a two-response merge the returned metadata is that of
the response with step 10, not the one with step 60. -/
theorem handleRenderPB_base_selection_witness :
    (handleRenderPB 3 [some ⟨"a", 0, 60, 60, [1], [false]⟩, none]).1 =
      some ⟨"a", 0, 60, 60, [1], [false]⟩ ∧
    ∃ m, (handleRenderPB 0 [some ⟨"a", 0, 120, 60, [1, 1], [false, false]⟩,
        some ⟨"b", 0, 20, 10, [2, 2], [false, false]⟩]).1 = some m ∧
      m.name = "b" ∧ m.stepTime = 10 := by
  constructor
  · exact (handleRenderPB_base_selection 3
      [some ⟨"a", 0, 60, 60, [1], [false]⟩, none]).1
      ⟨"a", 0, 60, 60, [1], [false]⟩ (by decide)
  · obtain ⟨_, _, m, hm, hname, _, _, hstep⟩ := (handleRenderPB_base_selection 0
      [some ⟨"a", 0, 120, 60, [1, 1], [false, false]⟩,
       some ⟨"b", 0, 20, 10, [2, 2], [false, false]⟩]).2 (by decide)
    refine ⟨m, hm, ?_, ?_⟩
    · rw [hname]; decide
    · rw [hstep]; decide

theorem lookupPath_setPath_self (m : List (String × List String)) (k : String)
    (v : List String) : lookupPath k (setPath m k v) = some v := by
  induction m with
  | nil => simp [setPath, lookupPath]
  | cons kv rest ih =>
    rw [setPath]
    by_cases hk : kv.1 = k
    · rw [if_pos hk, lookupPath, if_pos rfl]
    · rw [if_neg hk, lookupPath, if_neg hk]
      exact ih

theorem lookupPath_setPath_ne (m : List (String × List String)) (k q : String)
    (v : List String) (h : k ≠ q) : lookupPath q (setPath m k v) = lookupPath q m := by
  induction m with
  | nil => simp [setPath, lookupPath, h]
  | cons kv rest ih =>
    rw [setPath]
    by_cases hk : kv.1 = k
    · rw [if_pos hk]
      simp only [lookupPath]
      rw [if_neg h, if_neg (by rw [hk]; exact h)]
    · rw [if_neg hk]
      simp only [lookupPath]
      by_cases hq : kv.1 = q
      · rw [if_pos hq, if_pos hq]
      · rw [if_neg hq, if_neg hq]
        exact ih

theorem lookupPath_eq_none_iff (q : String) (m : List (String × List String)) :
    lookupPath q m = none ↔ q ∉ m.map Prod.fst := by
  induction m with
  | nil => simp [lookupPath]
  | cons kv rest ih =>
    rw [lookupPath]
    by_cases hq : kv.1 = q
    · rw [if_pos hq]
      simp [hq]
    · rw [if_neg hq]
      rw [ih]
      simp only [List.map_cons, List.mem_cons]
      constructor
      · intro hn hc
        rcases hc with hc | hc
        · exact hq hc.symm
        · exact hn hc
      · intro hn hc
        exact hn (Or.inr hc)

theorem setPath_keys (m : List (String × List String)) (k : String) (v : List String) :
    (setPath m k v).map Prod.fst =
      if (lookupPath k m).isSome then m.map Prod.fst else m.map Prod.fst ++ [k] := by
  induction m with
  | nil => simp [setPath, lookupPath]
  | cons kv rest ih =>
    rw [setPath, lookupPath]
    by_cases hk : kv.1 = k
    · rw [if_pos hk, if_pos hk]
      simp [hk]
    · rw [if_neg hk, if_neg hk, List.map_cons, ih, List.map_cons]
      by_cases hs : (lookupPath k rest).isSome
      · rw [if_pos hs, if_pos hs]
      · rw [if_neg hs, if_neg hs, List.cons_append]

theorem setPath_keys_nodup (m : List (String × List String)) (k : String) (v : List String)
    (h : (m.map Prod.fst).Nodup) : ((setPath m k v).map Prod.fst).Nodup := by
  rw [setPath_keys]
  by_cases hs : (lookupPath k m).isSome
  · rw [if_pos hs]; exact h
  · rw [if_neg hs]
    have hk : k ∉ m.map Prod.fst := by
      rw [← lookupPath_eq_none_iff]
      revert hs
      cases lookupPath k m <;> simp
    simp [List.nodup_append, h, hk]

theorem streamFold_append (acc : List GlobMatch × List (String × List String))
    (l1 l2 : List (String × GlobMatch)) :
    streamFold acc (l1 ++ l2) = streamFold (streamFold acc l1) l2 := by
  induction l1 generalizing acc with
  | nil => rfl
  | cons sm l1 ih =>
    rw [List.cons_append, streamFold, streamFold]
    exact ih _

theorem foldl_processMatch_eq_streamFold (s : String) (ms : List GlobMatch)
    (acc : List GlobMatch × List (String × List String)) :
    ms.foldl (processMatch s) acc = streamFold acc (ms.map (fun m => (s, m))) := by
  induction ms generalizing acc with
  | nil => rfl
  | cons m ms ih =>
    rw [List.foldl_cons, List.map_cons, streamFold]
    exact ih _

theorem findHandlerPB_eq_stream (e : Nat) (responses : List ServerGlob) :
    findHandlerPB e responses =
      ⟨(streamFold ([], []) (matchStream responses)).1,
       (streamFold ([], []) (matchStream responses)).2,
       e + (responses.filter (fun r => r.body.isNone)).length⟩ := by
  have hgen : ∀ (rs : List ServerGlob) (acc : FindAcc),
      rs.foldl
        (fun acc r =>
          match r.body with
          | none => { acc with findErrors := acc.findErrors + 1 }
          | some g =>
            let p := g.matchList.foldl (processMatch r.server) (acc.metrics, acc.paths)
            { acc with metrics := p.1, paths := p.2 })
        acc =
      ⟨(streamFold (acc.metrics, acc.paths) (matchStream rs)).1,
       (streamFold (acc.metrics, acc.paths) (matchStream rs)).2,
       acc.findErrors + (rs.filter (fun r => r.body.isNone)).length⟩ := by
    intro rs
    induction rs with
    | nil =>
      intro acc
      simp [matchStream, streamFold]
    | cons r rest ih =>
      intro acc
      rw [List.foldl_cons, matchStream]
      cases hb : r.body with
      | none =>
        rw [ih]
        simp only [List.nil_append]
        have hc : (List.filter (fun r => r.body.isNone) (r :: rest)).length =
            (List.filter (fun r => r.body.isNone) rest).length + 1 := by
          rw [List.filter_cons, if_pos (by simp [hb])]
          simp
        rw [hc]
        refine congrArg (fun x => FindAcc.mk _ _ x) ?_
        omega
      | some g =>
        rw [ih]
        simp only
        rw [streamFold_append, ← foldl_processMatch_eq_streamFold]
        have hc : (List.filter (fun r => r.body.isNone) (r :: rest)).length =
            (List.filter (fun r => r.body.isNone) rest).length := by
          rw [List.filter_cons, if_neg (by simp [hb])]
        rw [hc]
  rw [findHandlerPB, hgen]

theorem lookupPath_processMatch_isSome (s : String)
    (acc : List GlobMatch × List (String × List String)) (m : GlobMatch) (q : String) :
    (lookupPath q (processMatch s acc m).2).isSome =
      (q == m.path || (lookupPath q acc.2).isSome) := by
  simp only [processMatch]
  by_cases hq : q = m.path
  · subst hq
    rw [lookupPath_setPath_self]
    simp
  · rw [lookupPath_setPath_ne _ _ _ _ (fun h => hq h.symm)]
    simp [hq]

theorem streamFold_lookup (stream : List (String × GlobMatch))
    (acc : List GlobMatch × List (String × List String)) (p : String) :
    lookupPath p (streamFold acc stream).2 =
      if serversFor p stream = [] then lookupPath p acc.2
      else some ((lookupPath p acc.2).getD [] ++ serversFor p stream) := by
  induction stream generalizing acc with
  | nil => simp [streamFold, serversFor]
  | cons sm rest ih =>
    rw [streamFold, ih, serversFor]
    by_cases hp : sm.2.path = p
    · rw [if_pos hp]
      have hl : lookupPath p (processMatch sm.1 acc sm.2).2 =
          some ((lookupPath p acc.2).getD [] ++ [sm.1]) := by
        simp only [processMatch]
        rw [show sm.2.path = p from hp] at *
        exact lookupPath_setPath_self _ _ _
      rw [hl]
      by_cases hrest : serversFor p rest = []
      · rw [if_pos hrest, if_neg (by simp), hrest]
      · rw [if_neg hrest, if_neg (by simp)]
        simp
    · rw [if_neg hp]
      have hl : lookupPath p (processMatch sm.1 acc sm.2).2 = lookupPath p acc.2 := by
        simp only [processMatch]
        exact lookupPath_setPath_ne _ _ _ _ hp
      rw [hl]

theorem streamFold_metrics (stream : List (String × GlobMatch))
    (acc : List GlobMatch × List (String × List String)) :
    (streamFold acc stream).1 =
      acc.1 ++ firstOccurrences (fun q => (lookupPath q acc.2).isSome) stream := by
  induction stream generalizing acc with
  | nil => simp [streamFold, firstOccurrences]
  | cons sm rest ih =>
    rw [streamFold, ih, firstOccurrences]
    have hfun : (fun q => (lookupPath q (processMatch sm.1 acc sm.2).2).isSome) =
        (fun q => q == sm.2.path || (lookupPath q acc.2).isSome) :=
      funext fun q => lookupPath_processMatch_isSome sm.1 acc sm.2 q
    by_cases hseen : (lookupPath sm.2.path acc.2).isSome
    · rw [if_pos hseen]
      have h1 : (processMatch sm.1 acc sm.2).1 = acc.1 := by
        simp only [processMatch]
        rw [if_pos hseen]
      rw [h1, hfun]
      congr 1
      have : (fun q => q == sm.2.path || (lookupPath q acc.2).isSome) =
          (fun q => (lookupPath q acc.2).isSome) := by
        funext q
        by_cases hq : q = sm.2.path
        · subst hq
          simp [hseen]
        · simp [hq]
      rw [this]
    · rw [if_neg hseen]
      have h1 : (processMatch sm.1 acc sm.2).1 = acc.1 ++ [sm.2] := by
        simp only [processMatch]
        rw [if_neg hseen]
      rw [h1, hfun, List.append_assoc, List.singleton_append]

theorem streamFold_keys_nodup (stream : List (String × GlobMatch))
    (acc : List GlobMatch × List (String × List String))
    (h : (acc.2.map Prod.fst).Nodup) :
    (((streamFold acc stream).2).map Prod.fst).Nodup := by
  induction stream generalizing acc with
  | nil => exact h
  | cons sm rest ih =>
    rw [streamFold]
    exact ih _ (setPath_keys_nodup _ _ _ h)

theorem lookupPath_updateCache (cache paths : List (String × List String)) (p : String)
    (hnd : (paths.map Prod.fst).Nodup) :
    lookupPath p (updateCache cache paths) =
      match lookupPath p paths with
      | some v => some v
      | none => lookupPath p cache := by
  induction paths generalizing cache with
  | nil => simp [updateCache, lookupPath]
  | cons kv rest ih =>
    rw [show updateCache cache (kv :: rest) = updateCache (setPath cache kv.1 kv.2) rest
      from by simp [updateCache], lookupPath]
    rw [List.map_cons] at hnd
    by_cases hp : kv.1 = p
    · rw [if_pos hp]
      have hrest : lookupPath p rest = none := by
        rw [lookupPath_eq_none_iff]
        rw [← hp]
        exact (List.nodup_cons.mp hnd).1
      rw [ih _ (List.nodup_cons.mp hnd).2, hrest]
      rw [← hp]
      exact lookupPath_setPath_self _ _ _
    · rw [if_neg hp, ih _ (List.nodup_cons.mp hnd).2]
      cases lookupPath p rest with
      | some v => rfl
      | none => exact lookupPath_setPath_ne _ _ _ _ hp

theorem matchStream_all_none (responses : List ServerGlob)
    (h : ∀ r ∈ responses, r.body = none) : matchStream responses = [] := by
  induction responses with
  | nil => rfl
  | cons r rest ih =>
    rw [matchStream, h r (by simp), ih (fun x hx => h x (by simp [hx]))]
    rfl

/-- C7: findHandlerPB unions the glob matches by path: the returned
metrics are the first occurrence of each path in shard then match order;
the learned entry of a path that occurs is the full list of contributing
backends in order, with multiplicity; committing the aggregation
overwrites exactly the routing cache entries of the observed paths and
leaves every other entry untouched. -/
theorem findHandlerPB_union (e : Nat) (responses : List ServerGlob)
    (cache : List (String × List String)) (p : String) :
    ((findHandlerPB e responses).metrics =
      firstOccurrences (fun _ => false) (matchStream responses)) ∧
    (lookupPath p (findHandlerPB e responses).paths =
      (if serversFor p (matchStream responses) = [] then none
       else some (serversFor p (matchStream responses)))) ∧
    (lookupPath p (updateCache cache (findHandlerPB e responses).paths) =
      (if serversFor p (matchStream responses) = [] then lookupPath p cache
       else some (serversFor p (matchStream responses)))) := by
  have hm : (findHandlerPB e responses).metrics =
      firstOccurrences (fun _ => false) (matchStream responses) := by
    rw [findHandlerPB_eq_stream]
    rw [show (FindAcc.mk (streamFold ([], []) (matchStream responses)).1
      (streamFold ([], []) (matchStream responses)).2
      (e + (responses.filter (fun r => r.body.isNone)).length)).metrics =
      (streamFold ([], []) (matchStream responses)).1 from rfl]
    rw [streamFold_metrics]
    simp [lookupPath]
  have hp2 : lookupPath p (findHandlerPB e responses).paths =
      (if serversFor p (matchStream responses) = [] then none
       else some (serversFor p (matchStream responses))) := by
    rw [findHandlerPB_eq_stream]
    rw [show (FindAcc.mk (streamFold ([], []) (matchStream responses)).1
      (streamFold ([], []) (matchStream responses)).2
      (e + (responses.filter (fun r => r.body.isNone)).length)).paths =
      (streamFold ([], []) (matchStream responses)).2 from rfl]
    rw [streamFold_lookup]
    by_cases hs : serversFor p (matchStream responses) = []
    · rw [if_pos hs, if_pos hs]
      rfl
    · rw [if_neg hs, if_neg hs]
      rfl
  refine ⟨hm, hp2, ?_⟩
  have hnd : (((findHandlerPB e responses).paths).map Prod.fst).Nodup := by
    rw [findHandlerPB_eq_stream]
    exact streamFold_keys_nodup _ _ (by simp)
  rw [lookupPath_updateCache cache _ p hnd, hp2]
  by_cases hs : serversFor p (matchStream responses) = []
  · rw [if_pos hs, if_pos hs]
  · rw [if_neg hs, if_neg hs]

/-- C2 counterexample: the scatter phase returned one shard response and
its body fails to decode; the find handler replies 200 with an empty
metrics list, not HTTP 500. -/
theorem findHandler_decode_failure_cex :
    (findHandler 0 [] [⟨"A", none⟩]).1 = FindStatus.ok [] ∧
    (findHandler 0 [] [⟨"A", none⟩]).1 ≠ FindStatus.serverError := by decide

/-- C2 (amended): findHandler surfaces HTTP 500 exactly when the scatter
phase returned zero shard responses; when at least one response arrived
but every body failed protobuf decode, the handler counts one find error
per response, leaves the routing cache unchanged, and replies 200 with an
empty metrics list. -/
theorem findHandler_all_decode_failures (e : Nat) (cache : List (String × List String))
    (responses : List ServerGlob) (hne : responses ≠ [])
    (hfail : ∀ r ∈ responses, r.body = none) :
    (findHandler e cache responses).1 = FindStatus.ok [] ∧
    (findHandler e cache responses).2.1 = cache ∧
    (findHandler e cache responses).2.2 = e + responses.length := by
  have hlen : ¬(responses.length = 0) := by
    cases responses with
    | nil => exact absurd rfl hne
    | cons r rest => simp
  have hstream := matchStream_all_none responses hfail
  have hacc := findHandlerPB_eq_stream e responses
  have hfcount : (responses.filter (fun r => r.body.isNone)).length = responses.length := by
    rw [List.filter_eq_self.mpr (fun r hr => by simp [hfail r hr])]
  rw [hstream] at hacc
  simp only [streamFold] at hacc
  rw [findHandler, if_neg hlen]
  refine ⟨?_, ?_, ?_⟩
  · simp only [hacc]
  · simp only [hacc, updateCache, List.foldl_nil]
  · simp only [hacc, hfcount]

/-- Witness for the amended C2 theorem: two responses, both bodies
undecodable; status 200 with an empty list, cache untouched, two find
errors counted on top of the running value 2. -/
theorem findHandler_all_decode_failures_witness :
    (findHandler 2 [("x", ["A"])] [⟨"A", none⟩, ⟨"B", none⟩]).1 = FindStatus.ok [] ∧
    (findHandler 2 [("x", ["A"])] [⟨"A", none⟩, ⟨"B", none⟩]).2.1 = [("x", ["A"])] ∧
    (findHandler 2 [("x", ["A"])] [⟨"A", none⟩, ⟨"B", none⟩]).2.2 = 4 :=
  findHandler_all_decode_failures 2 [("x", ["A"])] [⟨"A", none⟩, ⟨"B", none⟩]
    (by decide) (by decide)

/-- C8: for a nonempty target, a missing or empty routing cache entry
makes the render scatter fan out to the full configured backend set,
while a nonempty entry routes the scatter to exactly those backends and
no others. -/
theorem renderRoute_cache (cache : List (String × List String))
    (backends : List String) (target : String) (hne : target ≠ "") :
    (lookupPath target cache = none →
      renderRoute cache backends target = RenderRoute.scatter backends) ∧
    (lookupPath target cache = some [] →
      renderRoute cache backends target = RenderRoute.scatter backends) ∧
    (∀ l, lookupPath target cache = some l → l ≠ [] →
      renderRoute cache backends target = RenderRoute.scatter l) := by
  rw [renderRoute, if_neg hne]
  refine ⟨?_, ?_, ?_⟩
  · intro h
    simp only [renderServerList, h]
  · intro h
    simp only [renderServerList, h]
    rfl
  · intro l h hl
    simp only [renderServerList, h]
    rw [if_neg (by simpa using hl)]

/-- Witness for the C8 theorem: a miss and an empty entry fall back to
the full backend set; the entry learned for x.z routes to backend B
only. -/
theorem renderRoute_cache_witness :
    renderRoute [("x.z", ["B"])] ["A", "B"] "x.y" = RenderRoute.scatter ["A", "B"] ∧
    renderRoute [("e", [])] ["A", "B"] "e" = RenderRoute.scatter ["A", "B"] ∧
    renderRoute [("x.z", ["B"])] ["A", "B"] "x.z" = RenderRoute.scatter ["B"] := by
  refine ⟨?_, ?_, ?_⟩
  · exact (renderRoute_cache [("x.z", ["B"])] ["A", "B"] "x.y" (by decide)).1 (by decide)
  · exact (renderRoute_cache [("e", [])] ["A", "B"] "e" (by decide)).2.1 (by decide)
  · exact (renderRoute_cache [("x.z", ["B"])] ["A", "B"] "x.z" (by decide)).2.2
      ["B"] (by decide) (by decide)

/-- C9 (amended): for format json the find results are serialized as the
GlobMatch records themselves, objects with field names path and isLeaf
(the metric_path/isLeaf object form belongs to the pickle encoding),
while render results are objects with field names start, step, end,
name, values, and an absent sample is serialized as JSON null. -/
theorem json_field_names (ms : List GlobMatch) (r : FetchResponse) (i : Nat)
    (hwf : r.wf) (hi : i < r.values.length) :
    (∀ m ∈ ms, ∃ fields, globMatchJson m = Json.obj fields ∧
        fields.map Prod.fst = ["path", "isLeaf"]) ∧
    ((findPickleForm ms).map (fun f => f.map Prod.fst) =
        ms.map (fun _ => ["metric_path", "isLeaf"])) ∧
    (jsonObjKeys (renderJsonBody r) = ["start", "step", "end", "name", "values"]) ∧
    ((renderValues Json.null r.values r.isAbsent).getD i (Json.num 0) =
        if r.isAbsent.getD i false then Json.null else Json.num (r.values.getD i 0)) := by
  have hlen : r.values.length = r.isAbsent.length := hwf
  refine ⟨?_, ?_, rfl, ?_⟩
  · intro m _
    exact ⟨[("path", Json.str m.path), ("isLeaf", Json.bool m.isLeaf)], rfl, rfl⟩
  · induction ms with
    | nil => rfl
    | cons m ms2 ih => simpa [findPickleForm] using ih
  · have hia : i < r.isAbsent.length := by omega
    have hz : i < ((r.values.zip r.isAbsent).map
        (fun p => if p.2 then Json.null else Json.num p.1)).length := by
      rw [List.length_map, List.length_zip]
      omega
    rw [renderValues, List.getD_eq_getElem _ _ hz, List.getElem_map, List.getElem_zip,
      List.getD_eq_getElem r.values 0 hi, List.getD_eq_getElem r.isAbsent false hia]

/-- C9 counterexample: the json encoding of a find result is an object
with keys path and isLeaf; metric_path is not among its field names. -/
theorem find_json_keys_cex :
    jsonObjKeys (globMatchJson ⟨"a.b", true⟩) = ["path", "isLeaf"] ∧
    "metric_path" ∉ jsonObjKeys (globMatchJson ⟨"a.b", true⟩) := by decide

/-- Witness for the amended C9 theorem: the render json object keys at a
concrete response, and the absent sample at index 1 serialized as
null. -/
theorem json_field_names_witness :
    jsonObjKeys (renderJsonBody ⟨"n", 0, 2, 1, [1, 2], [false, true]⟩) =
      ["start", "step", "end", "name", "values"] ∧
    (renderValues Json.null [1, 2] [false, true]).getD 1 (Json.num 0) = Json.null := by
  have h := json_field_names [⟨"a", true⟩] ⟨"n", 0, 2, 1, [1, 2], [false, true]⟩ 1
    rfl (by decide)
  exact ⟨h.2.2.1, h.2.2.2.trans rfl⟩

theorem gatherLoop_collected (tFirst : Nat) (arrivals : List (Nat × WireResponse))
    (st : GatherState) :
    ∃ k, (gatherLoop tFirst arrivals st).collected =
      st.collected ++ ((arrivals.take k).map Prod.snd).filter (fun r => r.body.isSome) := by
  induction arrivals generalizing st with
  | nil => exact ⟨0, by simp [gatherLoop]⟩
  | cons a rest ih =>
    obtain ⟨t, r⟩ := a
    rw [gatherLoop]
    by_cases hd : st.deadline < t
    · rw [if_pos hd]
      exact ⟨0, by simp⟩
    · rw [if_neg hd]
      obtain ⟨k, hk⟩ := ih (gatherStep tFirst st t r)
      refine ⟨k + 1, ?_⟩
      rw [hk, gatherStep]
      by_cases hb : r.body.isSome
      · rw [if_pos hb]
        simp [List.filter_cons, hb]
      · rw [if_neg hb]
        simp [List.filter_cons, hb]

theorem gatherLoop_all_none_deadline (tFirst : Nat)
    (arrivals : List (Nat × WireResponse)) (st : GatherState)
    (h : ∀ a ∈ arrivals, a.2.body = none) :
    (gatherLoop tFirst arrivals st).deadline = st.deadline ∧
    (gatherLoop tFirst arrivals st).isFirst = st.isFirst := by
  induction arrivals generalizing st with
  | nil => exact ⟨rfl, rfl⟩
  | cons a rest ih =>
    obtain ⟨t, r⟩ := a
    rw [gatherLoop]
    by_cases hd : st.deadline < t
    · rw [if_pos hd]
      exact ⟨rfl, rfl⟩
    · rw [if_neg hd]
      have hrb : r.body = none := h (t, r) (by simp)
      rw [show gatherStep tFirst st t r = st from by
        rw [gatherStep, if_neg (by rw [hrb]; simp)]]
      exact ih st (fun x hx => h x (by simp [hx]))

theorem gatherLoop_all_none_run (tFirst : Nat) (pre l2 : List (Nat × WireResponse))
    (st : GatherState) (h : ∀ a ∈ pre, a.2.body = none)
    (ht : ∀ a ∈ pre, a.1 ≤ st.deadline) :
    gatherLoop tFirst (pre ++ l2) st = gatherLoop tFirst l2 st := by
  induction pre with
  | nil => rfl
  | cons a pre ih =>
    obtain ⟨ta, ra⟩ := a
    rw [List.cons_append, gatherLoop,
      if_neg (by exact Nat.not_lt.mpr (ht (ta, ra) (by simp)))]
    have hrb : ra.body = none := h (ta, ra) (by simp)
    rw [show gatherStep tFirst st ta ra = st from by
      rw [gatherStep, if_neg (by rw [hrb]; simp)]]
    exact ih (fun x hx => h x (by simp [hx])) (fun x hx => ht x (by simp [hx]))

/-- C5: with one report per distinct backend of the scatter set, the
gather returns at most card S responses, each with a body, tagged with
pairwise distinct backends of S; absent reports consume loop iterations
(they sit in the consumed arrival prefix) but are never included in the
returned list. -/
theorem multiGet_scatter_invariant (tTotal tFirst t0 : Nat) (servers : List String)
    (arrivals : List (Nat × WireResponse))
    (hnd : (arrivals.map (fun a => a.2.server)).Nodup)
    (hmem : ∀ a ∈ arrivals, a.2.server ∈ servers) :
    ((multiGet tTotal tFirst t0 arrivals).collected.length ≤ servers.length) ∧
    (((multiGet tTotal tFirst t0 arrivals).collected.map WireResponse.server).Nodup) ∧
    (∀ r ∈ (multiGet tTotal tFirst t0 arrivals).collected,
      r.server ∈ servers ∧ r.body.isSome) ∧
    (∃ k, (multiGet tTotal tFirst t0 arrivals).collected =
      ((arrivals.take k).map Prod.snd).filter (fun r => r.body.isSome)) := by
  obtain ⟨k, hk⟩ := gatherLoop_collected tFirst arrivals ⟨[], true, t0 + tTotal, 0⟩
  have hcoll : (multiGet tTotal tFirst t0 arrivals).collected =
      ((arrivals.take k).map Prod.snd).filter (fun r => r.body.isSome) := by
    rw [multiGet, hk]
    rfl
  have hsub : (multiGet tTotal tFirst t0 arrivals).collected.Sublist
      (arrivals.map Prod.snd) := by
    rw [hcoll]
    exact (List.filter_sublist _).trans ((List.take_sublist _ _).map _)
  have hsrv : ((multiGet tTotal tFirst t0 arrivals).collected.map
      WireResponse.server).Sublist (arrivals.map (fun a => a.2.server)) := by
    have h2 := hsub.map WireResponse.server
    rwa [List.map_map] at h2
  have hnd2 : ((multiGet tTotal tFirst t0 arrivals).collected.map
      WireResponse.server).Nodup := hnd.sublist hsrv
  have hmem2 : ∀ r ∈ (multiGet tTotal tFirst t0 arrivals).collected,
      r.server ∈ servers ∧ r.body.isSome := by
    intro r hr
    constructor
    · obtain ⟨a, ha, hae⟩ := List.mem_map.mp (hsub.subset hr)
      rw [← hae]
      exact hmem a ha
    · rw [hcoll] at hr
      exact (List.mem_filter.mp hr).2
  refine ⟨?_, hnd2, hmem2, ⟨k, hcoll⟩⟩
  have hsubset : ∀ x ∈ (multiGet tTotal tFirst t0 arrivals).collected.map
      WireResponse.server, x ∈ servers := by
    intro x hx
    obtain ⟨r, hr, hre⟩ := List.mem_map.mp hx
    rw [← hre]
    exact (hmem2 r hr).1
  calc (multiGet tTotal tFirst t0 arrivals).collected.length
      = ((multiGet tTotal tFirst t0 arrivals).collected.map
          WireResponse.server).length := (List.length_map _ _).symm
    _ = ((multiGet tTotal tFirst t0 arrivals).collected.map
          WireResponse.server).toFinset.card := (List.toFinset_card_of_nodup hnd2).symm
    _ ≤ servers.toFinset.card := Finset.card_le_card
        (fun x hx => List.mem_toFinset.mpr (hsubset x (List.mem_toFinset.mp hx)))
    _ ≤ servers.length := servers.toFinset_card_le

/-- Witness for the C5 theorem at a concrete scatter over two backends,
one absent report and one successful response. -/
theorem multiGet_scatter_invariant_witness :
    (multiGet 2000 500 0 [(10, ⟨"A", none⟩), (20, ⟨"B", some [7]⟩)]).collected.length ≤ 2 ∧
    ∀ r ∈ (multiGet 2000 500 0 [(10, ⟨"A", none⟩), (20, ⟨"B", some [7]⟩)]).collected,
      r.server ∈ ["A", "B"] ∧ r.body.isSome := by
  have h := multiGet_scatter_invariant 2000 500 0 ["A", "B"]
    [(10, ⟨"A", none⟩), (20, ⟨"B", some [7]⟩)] (by decide) (by decide)
  exact ⟨h.1, h.2.2.1⟩

/-- C6: the active deadline is t0 plus tTotal from dispatch until the
first successful response is received; an absent report never changes
the deadline or the first-response flag; the receipt of the first
successful response at time t, and only it, replaces the deadline by t
plus tFirst, measured from the moment of receipt rather than from
dispatch; a later successful response leaves the deadline alone. -/
theorem multiGet_two_phase_deadline (tTotal tFirst t0 t : Nat)
    (pre rest : List (Nat × WireResponse)) (st : GatherState) (r : WireResponse) :
    (r.body = none → gatherStep tFirst st t r = st) ∧
    (r.body.isSome → st.isFirst = true →
      (gatherStep tFirst st t r).deadline = t + tFirst ∧
      (gatherStep tFirst st t r).isFirst = false) ∧
    (r.body.isSome → st.isFirst = false →
      (gatherStep tFirst st t r).deadline = st.deadline) ∧
    ((∀ a ∈ pre, a.2.body = none) →
      (multiGet tTotal tFirst t0 pre).deadline = t0 + tTotal) ∧
    ((∀ a ∈ pre, a.2.body = none) → (∀ a ∈ pre, a.1 ≤ t0 + tTotal) →
      r.body.isSome → t ≤ t0 + tTotal →
      multiGet tTotal tFirst t0 (pre ++ (t, r) :: rest) =
        gatherLoop tFirst rest ⟨[r], false, t + tFirst, 0⟩) := by
  refine ⟨?_, ?_, ?_, ?_, ?_⟩
  · intro h
    simp [gatherStep, h]
  · intro hb hf
    rw [gatherStep, if_pos hb]
    exact ⟨by simp [hf], rfl⟩
  · intro hb hf
    rw [gatherStep, if_pos hb]
    simp [hf]
  · intro h
    exact (gatherLoop_all_none_deadline tFirst pre ⟨[], true, t0 + tTotal, 0⟩ h).1
  · intro h ht hb htle
    rw [multiGet, gatherLoop_all_none_run tFirst pre _ _ h ht, gatherLoop,
      if_neg (Nat.not_lt.mpr htle)]
    rw [show gatherStep tFirst ⟨[], true, t0 + tTotal, 0⟩ t r =
      (⟨[r], false, t + tFirst, 0⟩ : GatherState) from by
      rw [gatherStep, if_pos hb]
      rfl]

/-- Witness for the C6 theorem: all-absent arrivals keep the dispatch
deadline 2000; after the first success at time 100 the deadline becomes
600, so the worker answering at 1700 is abandoned and a timeout is
counted. -/
theorem multiGet_two_phase_deadline_witness :
    (multiGet 2000 500 0 [(50, ⟨"A", none⟩)]).deadline = 2000 ∧
    multiGet 2000 500 0
        [(50, ⟨"A", none⟩), (100, ⟨"B", some [1]⟩), (1700, ⟨"C", some [2]⟩)] =
      ⟨[⟨"B", some [1]⟩], false, 600, 1⟩ := by
  have h := multiGet_two_phase_deadline 2000 500 0 100 [(50, ⟨"A", none⟩)]
    [(1700, ⟨"C", some [2]⟩)] ⟨[], true, 0, 0⟩ ⟨"B", some [1]⟩
  constructor
  · exact h.2.2.2.1 (by decide)
  · have h5 := h.2.2.2.2 (by decide) (by decide) (by decide) (by decide)
    calc multiGet 2000 500 0
          [(50, ⟨"A", none⟩), (100, ⟨"B", some [1]⟩), (1700, ⟨"C", some [2]⟩)]
        = multiGet 2000 500 0 ([(50, ⟨"A", none⟩)] ++
            (100, ⟨"B", some [1]⟩) :: [(1700, ⟨"C", some [2]⟩)]) := rfl
      _ = gatherLoop 500 [(1700, ⟨"C", some [2]⟩)]
            ⟨[⟨"B", some [1]⟩], false, 600, 0⟩ := h5
      _ = ⟨[⟨"B", some [1]⟩], false, 600, 1⟩ := by decide

end Carbon
